import Mathlib

/-!
Verification of the text-sanitizer pipeline
(`src/Text_sanitizer/text_sanitizer.py`).

Texts are modelled as lists of Unicode code points (a Python `str` is a
sequence of code points).  The character-level primitives `str.lower` and
`str.isalpha` are modelled on the ASCII fragment, which is the fragment the
repository exercises: `lowerCode` maps the codes of `A`..`Z` to `a`..`z` and
fixes everything else, and `isAlphaCode` classifies the codes of the ASCII
letters.  A Python `Counter` / `dict` is modelled as its insertion-ordered
association list together with the lookup function `getCount`; two counters
are equal as Python mappings when they agree under lookup.
-/

namespace TextSanitizer

/-- Character-level model of the Python method `str.lower` (ASCII fragment):
the codes 65..90 (`A`..`Z`) are shifted by 32 to 97..122 (`a`..`z`),
every other code point is unchanged. -/
def lowerCode (c : Nat) : Nat :=
  if 65 ≤ c ∧ c ≤ 90 then c + 32 else c

/-- Character-level model of the Python method `str.isalpha` (ASCII fragment):
true on the codes of `A`..`Z` and `a`..`z`. -/
def isAlphaCode (c : Nat) : Bool :=
  decide ((65 ≤ c ∧ c ≤ 90) ∨ (97 ≤ c ∧ c ≤ 122))

/-- The translation table built in `ProcessTextSanitizer.__init__` by
`str.maketrans` and applied by `str.translate`: the tab character
(code 9) maps to four underscore characters (code 95); every other
code point maps to itself. -/
def translateChar (c : Nat) : List Nat :=
  if c = 9 then [95, 95, 95, 95] else [c]

/-- Model of `ProcessTextSanitizer.sanitize`:
`text.lower().translate(self.translation_table)`. -/
def sanitize (text : List Nat) : List Nat :=
  (text.map lowerCode).flatMap translateChar

/-- A `Statistics` value: the insertion-ordered association list underlying a
Python `Counter` (or the `dict` obtained from it). -/
abbrev Stats := List (Nat × Nat)

/-- Python `counter[k] += n` on the association list: increment the existing entry
for `k`, or append a fresh entry `(k, n)` at the end (Python dict insertion
order). -/
def addCount : Stats → Nat → Nat → Stats
  | [], k, n => [(k, n)]
  | kv :: rest, k, n =>
      if kv.1 = k then (kv.1, kv.2 + n) :: rest else kv :: addCount rest k n

/-- Model of `calculate_statistics_chunk`:
`Counter(char for char in chunk.lower() if char.isalpha())`. -/
def calculate_statistics_chunk (chunk : List Nat) : Stats :=
  ((chunk.map lowerCode).filter isAlphaCode).foldl (fun acc c => addCount acc c 1) []

/-- Model of `Counter.update` with another counter (the merge of the reduction stage in
`TextProcessor.process`): each entry of `b` is added into `a`, in the
insertion order of `b`. -/
def update (a b : Stats) : Stats :=
  b.foldl (fun acc kv => addCount acc kv.1 kv.2) a

/-- Mapping lookup on a counter: the count stored for `k`, `0` when `k` is
not a key.  Two Python counters are equal as mappings exactly when they
agree under this lookup and have no zero-valued entries (the pipeline never
creates zero-valued entries, see the key/value invariant). -/
def getCount : Stats → Nat → Nat
  | [], _ => 0
  | kv :: rest, k => if kv.1 = k then kv.2 else getCount rest k

/-- Whether `k` is a key of the counter. -/
def hasKey : Stats → Nat → Bool
  | [], _ => false
  | kv :: rest, k => if kv.1 = k then true else hasKey rest k

/-- The total weight the entries of a counter assign to the key `x`, entry by
entry.  On a counter whose keys are distinct this is exactly `getCount`. -/
def entrySum (s : Stats) (x : Nat) : Nat :=
  (s.map (fun kv => if kv.1 = x then kv.2 else 0)).sum

/-- The number of values stored in a counter (the sum of its counts). -/
def sumVals (s : Stats) : Nat :=
  (s.map Prod.snd).sum

/-- The number of alphabetic characters appearing in a text. -/
def alphaCount (t : List Nat) : Nat :=
  (t.filter isAlphaCode).length

/-- The key/value invariant of the statistics produced by the pipeline: every
key is the code of a lowercase ASCII letter and every count is strictly
positive. -/
def goodStats (s : Stats) : Prop :=
  ∀ kv ∈ s, (97 ≤ kv.1 ∧ kv.1 ≤ 122) ∧ 0 < kv.2

/-- The statistics pass of `TextProcessor.process`: each chunk is sanitized
(`pool.imap` preserves input order), its statistics are computed, and the
per-chunk counters are folded into `combined_statistics` with
`Counter.update`. -/
def combined_statistics (chunks : List (List Nat)) : Stats :=
  ((chunks.map sanitize).map calculate_statistics_chunk).foldl update []

/-- The output pass of `TextProcessor.process`: the source is re-read and
sanitized serially, in original chunk order. -/
def sanitized_output (chunks : List (List Nat)) : List (List Nat) :=
  chunks.map sanitize

/-- The code points of a Lean string literal, used to transcribe concrete
Python strings. -/
def toCodes (s : String) : List Nat :=
  s.data.map Char.toNat

/-- The code points of the decimal rendering of `n` (the `f-string`
formatting of an integer). -/
def natCodes (n : Nat) : List Nat :=
  (Nat.toDigits 10 n).map Char.toNat

/-- One statistics line written by `FileOutputWriter.write`:
the key, a colon, a space, the decimal count, a newline. -/
def statsLine (kv : Nat × Nat) : List Nat :=
  [kv.1, 58, 32] ++ natCodes kv.2 ++ [10]

/-- Model of `FileOutputWriter.write` on a successful run: every sanitized chunk in
order, then the literal header line (note the spelling `alphabelt` in the
source), then one line per counter entry in insertion order. -/
def write (sanitized_text : List (List Nat)) (statistics : Stats) : List Nat :=
  sanitized_text.flatten ++ toCodes "\nCount of alphabelt:\n"
    ++ statistics.flatMap statsLine

/-- The bytes produced by a full successful run of `TextProcessor.process`
followed by `FileOutputWriter.write`. -/
def pipeline_output (chunks : List (List Nat)) : List Nat :=
  write (sanitized_output chunks) (combined_statistics chunks)

/-- Model of `FileOutputWriter.write` when the sanitized-text iterator can raise:
the file is opened with mode `w` (truncated) and the delivered chunks are
written one by one; when the iterator raises after `delivered`, the
exception propagates out of the `with` block, the partial contents persist,
and the header and statistics are never written.  The second component
records whether the run completed. -/
def writeFallible (delivered : List (List Nat)) (errored : Bool)
    (statistics : Stats) : List Nat × Bool :=
  if errored then (delivered.flatten, false)
  else (write delivered statistics, true)

/-! ### Character-level lemmas -/

theorem lowerCode_idem (c : Nat) : lowerCode (lowerCode c) = lowerCode c := by
  unfold lowerCode
  split_ifs <;> omega

theorem lowerCode_eq_tab {c : Nat} (h : lowerCode c = 9) : c = 9 := by
  unfold lowerCode at h
  split at h <;> omega

theorem lowerCode_underscore : lowerCode 95 = 95 := by decide

theorem isAlphaCode_lowerCode (c : Nat) : isAlphaCode (lowerCode c) = isAlphaCode c := by
  unfold isAlphaCode lowerCode
  split_ifs <;> simp only [decide_eq_decide] <;> omega

theorem lowerCode_alpha_lower {c : Nat} (h : isAlphaCode (lowerCode c) = true) :
    97 ≤ lowerCode c ∧ lowerCode c ≤ 122 := by
  unfold isAlphaCode at h
  unfold lowerCode at h ⊢
  split_ifs at h ⊢ <;> simp only [decide_eq_true_eq] at h <;> omega

/-! ### Sanitize lemmas -/

theorem sanitize_nil : sanitize [] = [] := rfl

theorem sanitize_cons (c : Nat) (t : List Nat) :
    sanitize (c :: t) = translateChar (lowerCode c) ++ sanitize t := by
  simp [sanitize]

theorem sanitize_append (a b : List Nat) :
    sanitize (a ++ b) = sanitize a ++ sanitize b := by
  simp [sanitize]

theorem sanitize_flatten (chunks : List (List Nat)) :
    sanitize chunks.flatten = (chunks.map sanitize).flatten := by
  induction chunks with
  | nil => rfl
  | cons ch rest ih => simp [sanitize_append, ih]

theorem sanitize_perChar (t : List Nat) :
    sanitize t = t.flatMap (fun c => if c = 9 then [95, 95, 95, 95] else [lowerCode c]) := by
  induction t with
  | nil => rfl
  | cons c t ih =>
      rw [sanitize_cons, List.flatMap_cons, ih]
      congr 1
      by_cases h : c = 9
      · subst h; rfl
      · have h9 : lowerCode c ≠ 9 := fun hc => h (lowerCode_eq_tab hc)
        simp [translateChar, h, h9]

theorem sanitize_sanitizeChar (c : Nat) :
    sanitize (translateChar (lowerCode c)) = translateChar (lowerCode c) := by
  by_cases h : c = 9
  · subst h; decide
  · have h9 : lowerCode c ≠ 9 := fun hc => h (lowerCode_eq_tab hc)
    simp [translateChar, h9, sanitize, lowerCode_idem c]

/-! ### Counter lemmas -/

theorem entrySum_nil (x : Nat) : entrySum [] x = 0 := rfl

theorem entrySum_cons (kv : Nat × Nat) (rest : Stats) (x : Nat) :
    entrySum (kv :: rest) x = (if kv.1 = x then kv.2 else 0) + entrySum rest x := by
  simp [entrySum]

theorem sumVals_nil : sumVals [] = 0 := rfl

theorem sumVals_cons (kv : Nat × Nat) (rest : Stats) :
    sumVals (kv :: rest) = kv.2 + sumVals rest := by
  simp [sumVals]

theorem getCount_addCount (s : Stats) (k n x : Nat) :
    getCount (addCount s k n) x = getCount s x + (if k = x then n else 0) := by
  induction s with
  | nil =>
      simp only [addCount, getCount]
      split_ifs <;> omega
  | cons kv rest ih =>
      simp only [addCount]
      by_cases hk : kv.1 = k
      · rw [if_pos hk]
        simp only [getCount]
        split_ifs <;> omega
      · rw [if_neg hk]
        simp only [getCount, ih]
        split_ifs <;> omega

theorem entrySum_addCount (s : Stats) (k n x : Nat) :
    entrySum (addCount s k n) x = entrySum s x + (if k = x then n else 0) := by
  induction s with
  | nil =>
      simp only [addCount, entrySum_nil, entrySum_cons, Nat.zero_add]
      split_ifs <;> omega
  | cons kv rest ih =>
      simp only [addCount]
      by_cases hk : kv.1 = k
      · rw [if_pos hk]
        simp only [entrySum_cons]
        split_ifs <;> omega
      · rw [if_neg hk]
        simp only [entrySum_cons, ih]
        split_ifs <;> omega

theorem sumVals_addCount (s : Stats) (k n : Nat) :
    sumVals (addCount s k n) = sumVals s + n := by
  induction s with
  | nil => simp [addCount, sumVals]
  | cons kv rest ih =>
      simp only [addCount]
      by_cases hk : kv.1 = k
      · rw [if_pos hk]
        simp only [sumVals_cons]
        omega
      · rw [if_neg hk]
        simp only [sumVals_cons, ih]
        omega

theorem getCount_update (a b : Stats) (x : Nat) :
    getCount (update a b) x = getCount a x + entrySum b x := by
  unfold update
  induction b generalizing a with
  | nil => simp [entrySum_nil]
  | cons kv rest ih =>
      simp only [List.foldl_cons, ih, getCount_addCount, entrySum_cons]
      omega

theorem entrySum_update (a b : Stats) (x : Nat) :
    entrySum (update a b) x = entrySum a x + entrySum b x := by
  unfold update
  induction b generalizing a with
  | nil => simp [entrySum_nil]
  | cons kv rest ih =>
      simp only [List.foldl_cons, ih, entrySum_addCount, entrySum_cons]
      omega

theorem sumVals_update (a b : Stats) :
    sumVals (update a b) = sumVals a + sumVals b := by
  unfold update
  induction b generalizing a with
  | nil => simp [sumVals_nil]
  | cons kv rest ih =>
      simp only [List.foldl_cons, ih, sumVals_addCount, sumVals_cons]
      omega

theorem entrySum_eq_zero_of_not_mem {s : Stats} {x : Nat}
    (h : x ∉ s.map Prod.fst) : entrySum s x = 0 := by
  induction s with
  | nil => rfl
  | cons kv rest ih =>
      simp only [List.map_cons, List.mem_cons] at h
      push_neg at h
      rw [entrySum_cons, if_neg (fun he => h.1 he.symm), ih h.2]

theorem entrySum_eq_getCount {s : Stats} (h : (s.map Prod.fst).Nodup) (x : Nat) :
    entrySum s x = getCount s x := by
  induction s with
  | nil => rfl
  | cons kv rest ih =>
      obtain ⟨k0, v⟩ := kv
      simp only [List.map_cons, List.nodup_cons] at h
      rw [entrySum_cons]
      simp only [getCount]
      by_cases hx : k0 = x
      · subst hx
        rw [if_pos rfl, if_pos rfl, entrySum_eq_zero_of_not_mem h.1]
        omega
      · rw [if_neg hx, if_neg hx, ih h.2, Nat.zero_add]

theorem getCount_foldl_count (l : List Nat) (s : Stats) (x : Nat) :
    getCount (l.foldl (fun acc c => addCount acc c 1) s) x
      = getCount s x + l.count x := by
  induction l generalizing s with
  | nil => simp
  | cons c rest ih =>
      simp only [List.foldl_cons, ih, getCount_addCount, List.count_cons,
        beq_iff_eq]
      split_ifs <;> omega

theorem entrySum_foldl_count (l : List Nat) (s : Stats) (x : Nat) :
    entrySum (l.foldl (fun acc c => addCount acc c 1) s) x
      = entrySum s x + l.count x := by
  induction l generalizing s with
  | nil => simp
  | cons c rest ih =>
      simp only [List.foldl_cons, ih, entrySum_addCount, List.count_cons,
        beq_iff_eq]
      split_ifs <;> omega

theorem sumVals_foldl_count (l : List Nat) (s : Stats) :
    sumVals (l.foldl (fun acc c => addCount acc c 1) s)
      = sumVals s + l.length := by
  induction l generalizing s with
  | nil => simp
  | cons c rest ih =>
      simp only [List.foldl_cons, ih, sumVals_addCount, List.length_cons]
      omega

theorem getCount_calculate_statistics_chunk (ch : List Nat) (x : Nat) :
    getCount (calculate_statistics_chunk ch) x
      = ((ch.map lowerCode).filter isAlphaCode).count x := by
  unfold calculate_statistics_chunk
  rw [getCount_foldl_count]
  simp [getCount]

theorem entrySum_calculate_statistics_chunk (ch : List Nat) (x : Nat) :
    entrySum (calculate_statistics_chunk ch) x
      = ((ch.map lowerCode).filter isAlphaCode).count x := by
  unfold calculate_statistics_chunk
  rw [entrySum_foldl_count]
  simp [entrySum_nil]

theorem sumVals_calculate_statistics_chunk (ch : List Nat) :
    sumVals (calculate_statistics_chunk ch)
      = ((ch.map lowerCode).filter isAlphaCode).length := by
  unfold calculate_statistics_chunk
  rw [sumVals_foldl_count]
  simp [sumVals_nil]

theorem getCount_foldl_update (l : List Stats) (init : Stats) (x : Nat) :
    getCount (l.foldl update init) x
      = getCount init x + (l.map (fun s => entrySum s x)).sum := by
  induction l generalizing init with
  | nil => simp
  | cons s rest ih =>
      simp only [List.foldl_cons, ih, getCount_update, List.map_cons,
        List.sum_cons]
      omega

theorem sumVals_foldl_update (l : List Stats) (init : Stats) :
    sumVals (l.foldl update init) = sumVals init + (l.map sumVals).sum := by
  induction l generalizing init with
  | nil => simp
  | cons s rest ih =>
      simp only [List.foldl_cons, ih, sumVals_update, List.map_cons,
        List.sum_cons]
      omega

theorem getCount_nil (x : Nat) : getCount [] x = 0 := rfl

theorem length_filter_map_lowerCode (t : List Nat) :
    ((t.map lowerCode).filter isAlphaCode).length = (t.filter isAlphaCode).length := by
  induction t with
  | nil => rfl
  | cons c rest ih =>
      simp only [List.map_cons, List.filter_cons, isAlphaCode_lowerCode]
      by_cases h : isAlphaCode c = true
      · simp [h, ih]
      · simp [h, ih]

/-! ### Invariant lemmas for the statistics keys and values -/

theorem mem_filter_lower_good {t : List Nat} {c : Nat}
    (h : c ∈ (t.map lowerCode).filter isAlphaCode) : 97 ≤ c ∧ c ≤ 122 := by
  rw [List.mem_filter] at h
  obtain ⟨hm, ha⟩ := h
  rw [List.mem_map] at hm
  obtain ⟨o, _, rfl⟩ := hm
  exact lowerCode_alpha_lower ha

theorem goodStats_nil : goodStats [] := by
  intro kv h
  cases h

theorem goodStats_addCount : ∀ (s : Stats) (k n : Nat), goodStats s →
    97 ≤ k → k ≤ 122 → 0 < n → goodStats (addCount s k n)
  | [], k, n, _, hk1, hk2, hn => by
      intro kv hkv
      simp only [addCount, List.mem_singleton] at hkv
      subst hkv
      exact ⟨⟨hk1, hk2⟩, hn⟩
  | kv0 :: rest, k, n, hs, hk1, hk2, hn => by
      intro kv hkv
      simp only [addCount] at hkv
      by_cases hq : kv0.1 = k
      · rw [if_pos hq] at hkv
        rcases List.mem_cons.mp hkv with h1 | h2
        · have h0 := hs kv0 (List.mem_cons_self kv0 rest)
          rw [h1]
          exact ⟨h0.1, Nat.lt_of_lt_of_le h0.2 (Nat.le_add_right _ _)⟩
        · exact hs kv (List.mem_cons_of_mem _ h2)
      · rw [if_neg hq] at hkv
        rcases List.mem_cons.mp hkv with h1 | h2
        · rw [h1]
          exact hs kv0 (List.mem_cons_self kv0 rest)
        · exact goodStats_addCount rest k n
            (fun kv2 h => hs kv2 (List.mem_cons_of_mem _ h)) hk1 hk2 hn kv h2

theorem goodStats_foldl_count {l : List Nat} {s : Stats}
    (hl : ∀ c ∈ l, 97 ≤ c ∧ c ≤ 122) (hs : goodStats s) :
    goodStats (l.foldl (fun acc c => addCount acc c 1) s) := by
  induction l generalizing s with
  | nil => exact hs
  | cons c rest ih =>
      simp only [List.foldl_cons]
      exact ih (fun d hd => hl d (List.mem_cons_of_mem _ hd))
        (goodStats_addCount s c 1 hs (hl c (List.mem_cons_self c rest)).1
          (hl c (List.mem_cons_self c rest)).2 Nat.one_pos)

theorem goodStats_chunk (t : List Nat) : goodStats (calculate_statistics_chunk t) := by
  unfold calculate_statistics_chunk
  exact goodStats_foldl_count (fun c hc => mem_filter_lower_good hc) goodStats_nil

theorem goodStats_update : ∀ (b : Stats) (a : Stats), goodStats a → goodStats b →
    goodStats (update a b)
  | [], _, ha, _ => ha
  | kv :: rest, a, ha, hb => by
      have hkv := hb kv (List.mem_cons_self kv rest)
      have h1 : goodStats (addCount a kv.1 kv.2) :=
        goodStats_addCount a kv.1 kv.2 ha hkv.1.1 hkv.1.2 hkv.2
      have h2 : goodStats rest := fun kv2 h => hb kv2 (List.mem_cons_of_mem _ h)
      simpa [update, List.foldl_cons] using
        goodStats_update rest (addCount a kv.1 kv.2) h1 h2

theorem goodStats_foldl_update : ∀ (l : List Stats) (init : Stats),
    goodStats init → (∀ s ∈ l, goodStats s) → goodStats (l.foldl update init)
  | [], _, hi, _ => hi
  | s :: rest, init, hi, hl => by
      simp only [List.foldl_cons]
      exact goodStats_foldl_update rest _
        (goodStats_update s init hi (hl s (List.mem_cons_self s rest)))
        (fun s2 h => hl s2 (List.mem_cons_of_mem _ h))

theorem goodStats_combined (chunks : List (List Nat)) :
    goodStats (combined_statistics chunks) := by
  unfold combined_statistics
  refine goodStats_foldl_update _ [] goodStats_nil ?_
  intro s hs
  rw [List.mem_map] at hs
  obtain ⟨ch, _, rfl⟩ := hs
  exact goodStats_chunk ch

theorem good_key_props {k : Nat} (h1 : 97 ≤ k) (h2 : k ≤ 122) :
    isAlphaCode k = true ∧ lowerCode k = k := by
  constructor
  · unfold isAlphaCode
    rw [decide_eq_true_eq]
    omega
  · unfold lowerCode
    rw [if_neg (by omega : ¬(65 ≤ k ∧ k ≤ 90))]

/-! ### Claims -/

/-- C1: the bytes written by a successful run are the concatenated normalized
chunks in order, a literal header line, and one line per character in
insertion order.  The code writes the header `\nCount of alphabelt:\n`
(misspelled), not `\nCount of alphabet:\n` as the byte-exact contract in the
spec states: evaluated on the chunk sequence `["hi"]`, the output bytes carry
the misspelled header and differ from the claimed bytes. -/
theorem claim_C1_output_bytes :
    pipeline_output [toCodes "hi"] = toCodes "hi\nCount of alphabelt:\nh: 1\ni: 1\n"
      ∧ pipeline_output [toCodes "hi"] ≠ toCodes "hi\nCount of alphabet:\nh: 1\ni: 1\n" := by
  constructor
  · decide
  · decide

/-- C2: `sanitize` lowercases every character and replaces every literal tab
with exactly four underscores; on `"Hello\tWorld"` it yields
`"hello____world"` with statistics `h:1, e:1, l:3, o:2, w:1, r:1, d:1` in
insertion order. -/
theorem claim_C2_sanitize_semantics :
    (∀ t : List Nat,
        sanitize t = t.flatMap (fun c => if c = 9 then [95, 95, 95, 95] else [lowerCode c]))
      ∧ sanitize (toCodes "Hello\tWorld") = toCodes "hello____world"
      ∧ calculate_statistics_chunk (sanitize (toCodes "Hello\tWorld"))
        = [(Char.toNat 'h', 1), (Char.toNat 'e', 1), (Char.toNat 'l', 3),
           (Char.toNat 'o', 2), (Char.toNat 'w', 1), (Char.toNat 'r', 1),
           (Char.toNat 'd', 1)] :=
  ⟨sanitize_perChar, by decide, by decide⟩

/-- C3: for the full pipeline on any chunk sequence, the sum of all values of
the merged statistics equals the number of alphabetic characters in the fully
sanitized text. -/
theorem claim_C3_conservation (chunks : List (List Nat)) :
    sumVals (combined_statistics chunks)
      = alphaCount (sanitized_output chunks).flatten := by
  unfold combined_statistics sanitized_output alphaCount
  rw [sumVals_foldl_update, sumVals_nil, Nat.zero_add]
  induction chunks with
  | nil => rfl
  | cons ch rest ih =>
      simp only [List.map_cons, List.sum_cons, List.flatten_cons,
        List.filter_append, List.length_append]
      rw [ih, sumVals_calculate_statistics_chunk, length_filter_map_lowerCode]

/-- C4 (amended): all errors are terminal with no retry; a run completes
exactly when no error occurs, and then the sink receives the complete stream
and statistics.  However, when the error occurs while the sink is consuming
the stream, the target file retains the chunks delivered before the error —
a proper prefix of the complete output — so an aborted run can leave partial
output (the original claim of no output written fails, see the
counterexample). -/
theorem claim_C4_terminal_errors (delivered : List (List Nat)) (stats : Stats) :
    (writeFallible delivered false stats).2 = true
      ∧ (writeFallible delivered false stats).1 = write delivered stats
      ∧ (writeFallible delivered true stats).2 = false
      ∧ (writeFallible delivered true stats).1 = delivered.flatten
      ∧ ∃ rest, (writeFallible delivered true stats).1 ++ rest
          = (writeFallible delivered false stats).1 := by
  refine ⟨rfl, rfl, rfl, rfl,
    ⟨toCodes "\nCount of alphabelt:\n" ++ stats.flatMap statsLine, ?_⟩⟩
  simp [writeFallible, write, List.append_assoc]

/-- C4 counterexample: a source error raised after the first chunk of the
output pass aborts the run, yet the target file already holds that chunk —
output has been written, contradicting the claim that an aborted run writes
no output. -/
theorem claim_C4_counterexample :
    (writeFallible [toCodes "a"] true []).2 = false
      ∧ (writeFallible [toCodes "a"] true []).1 ≠ [] :=
  ⟨rfl, by decide⟩

/-- C5: `sanitize` is idempotent. -/
theorem claim_C5_sanitize_idempotent (t : List Nat) :
    sanitize (sanitize t) = sanitize t := by
  induction t with
  | nil => rfl
  | cons c rest ih =>
      rw [sanitize_cons, sanitize_append, ih, sanitize_sanitizeChar]

/-- C6: the pipeline merge (Counter.update, elementwise sum) is associative
and commutative with the empty mapping as identity, where two counters are
equal as Python mappings when the counts they assign to every key agree.
Commutativity and the left identity law are stated for counters with
distinct keys, which every Python dict has by construction. -/
theorem claim_C6_merge_laws (a b c : Stats) (x : Nat)
    (ha : (a.map Prod.fst).Nodup) (hb : (b.map Prod.fst).Nodup) :
    getCount (update a (update b c)) x = getCount (update (update a b) c) x
      ∧ getCount (update a b) x = getCount (update b a) x
      ∧ update a [] = a
      ∧ getCount (update [] a) x = getCount a x := by
  refine ⟨?_, ?_, rfl, ?_⟩
  · rw [getCount_update, getCount_update, getCount_update, entrySum_update]
    omega
  · rw [getCount_update, getCount_update, entrySum_eq_getCount hb x,
      entrySum_eq_getCount ha x]
    omega
  · rw [getCount_update, getCount_nil, entrySum_eq_getCount ha x, Nat.zero_add]

/-- C6 witness: the merge laws evaluated on the concrete counters
`a = [a:2]`, `b = [b:1, c:4]`, `c = [a:1]` at the key `a`. -/
theorem claim_C6_merge_laws_witness :
    (([(97, 2)] : Stats).map Prod.fst).Nodup
      ∧ (([(98, 1), (99, 4)] : Stats).map Prod.fst).Nodup
      ∧ (getCount (update [(97, 2)] (update [(98, 1), (99, 4)] [(97, 1)])) 97
          = getCount (update (update [(97, 2)] [(98, 1), (99, 4)]) [(97, 1)]) 97
        ∧ getCount (update [(97, 2)] [(98, 1), (99, 4)]) 97
          = getCount (update [(98, 1), (99, 4)] [(97, 2)]) 97
        ∧ update [(97, 2)] [] = [(97, 2)]
        ∧ getCount (update [] [(97, 2)]) 97 = getCount [(97, 2)] 97) :=
  ⟨by decide, by decide,
    claim_C6_merge_laws [(97, 2)] [(98, 1), (99, 4)] [(97, 1)] 97
      (by decide) (by decide)⟩

/-- C7: splitting a text into any sequence of chunks, computing per-chunk
statistics (sanitize then count) and merging them yields the same statistics
mapping as computing the statistics of the whole text at once. -/
theorem claim_C7_chunk_invariance (text : List Nat) (chunks : List (List Nat))
    (h : chunks.flatten = text) (x : Nat) :
    getCount (combined_statistics chunks) x
      = getCount (calculate_statistics_chunk (sanitize text)) x := by
  subst h
  unfold combined_statistics
  rw [getCount_foldl_update, getCount_nil, Nat.zero_add,
    getCount_calculate_statistics_chunk, sanitize_flatten]
  induction chunks with
  | nil => rfl
  | cons ch rest ih =>
      simp only [List.map_cons, List.sum_cons, List.flatten_cons,
        List.map_append, List.filter_append, List.count_append]
      rw [ih, entrySum_calculate_statistics_chunk]

/-- C7 witness: the chunk-invariance equation evaluated on the text
`"Hello"` split into the chunks `"Hel"` and `"lo"`, at the key `l`. -/
theorem claim_C7_chunk_invariance_witness :
    ([toCodes "Hel", toCodes "lo"].flatten = toCodes "Hello")
      ∧ getCount (combined_statistics [toCodes "Hel", toCodes "lo"]) (Char.toNat 'l')
        = getCount (calculate_statistics_chunk (sanitize (toCodes "Hello")))
            (Char.toNat 'l') :=
  ⟨by decide,
    claim_C7_chunk_invariance (toCodes "Hello") [toCodes "Hel", toCodes "lo"]
      (by decide) (Char.toNat 'l')⟩

/-- C8: the empty chunk sequence yields an empty normalized-text stream and an
empty statistics mapping, and the sink run completes without error. -/
theorem claim_C8_empty_input :
    sanitized_output [] = [] ∧ combined_statistics [] = []
      ∧ (writeFallible (sanitized_output []) false (combined_statistics [])).2
          = true :=
  ⟨rfl, rfl, rfl⟩

/-- C9: regardless of the order in which the per-chunk statistics reach the
reduction, the reduced statistics assign every key the same count as the
in-order reduction, and the emitted sanitized text is the serial
sanitization of the original chunks in original order (the second pass). -/
theorem claim_C9_schedule_independence (chunks : List (List Nat))
    (scheduled : List Stats) (x : Nat)
    (h : scheduled.Perm ((chunks.map sanitize).map calculate_statistics_chunk)) :
    getCount (scheduled.foldl update []) x = getCount (combined_statistics chunks) x
      ∧ sanitized_output chunks = chunks.map sanitize := by
  refine ⟨?_, rfl⟩
  unfold combined_statistics
  rw [getCount_foldl_update, getCount_foldl_update,
    List.Perm.sum_eq (List.Perm.map (fun s => entrySum s x) h)]

/-- C9 witness: the scheduling-independence equation evaluated on the chunks
`"ab"`, `"c"` with the two per-chunk counters reduced in reversed order, at
the key `a`. -/
theorem claim_C9_schedule_independence_witness :
    ([calculate_statistics_chunk (sanitize (toCodes "c")),
        calculate_statistics_chunk (sanitize (toCodes "ab"))].Perm
      (([toCodes "ab", toCodes "c"].map sanitize).map calculate_statistics_chunk))
      ∧ getCount ([calculate_statistics_chunk (sanitize (toCodes "c")),
            calculate_statistics_chunk (sanitize (toCodes "ab"))].foldl update []) 97
        = getCount (combined_statistics [toCodes "ab", toCodes "c"]) 97 :=
  ⟨by decide,
    (claim_C9_schedule_independence [toCodes "ab", toCodes "c"]
      [calculate_statistics_chunk (sanitize (toCodes "c")),
        calculate_statistics_chunk (sanitize (toCodes "ab"))] 97 (by decide)).1⟩

/-- C10: every key of a per-chunk partial or of the merged statistics is the
code of a single lowercase alphabetic character (it is alphabetic and fixed
by lowercasing) and every stored count is strictly positive. -/
theorem claim_C10_stats_keys_values (chunks : List (List Nat)) (ch : List Nat)
    (k v : Nat) :
    ((k, v) ∈ combined_statistics chunks →
        (97 ≤ k ∧ k ≤ 122) ∧ isAlphaCode k = true ∧ lowerCode k = k ∧ 0 < v)
      ∧ ((k, v) ∈ calculate_statistics_chunk (sanitize ch) →
        (97 ≤ k ∧ k ≤ 122) ∧ isAlphaCode k = true ∧ lowerCode k = k ∧ 0 < v) := by
  constructor
  · intro hm
    have hg := goodStats_combined chunks (k, v) hm
    have hp := good_key_props hg.1.1 hg.1.2
    exact ⟨hg.1, hp.1, hp.2, hg.2⟩
  · intro hm
    have hg := goodStats_chunk (sanitize ch) (k, v) hm
    have hp := good_key_props hg.1.1 hg.1.2
    exact ⟨hg.1, hp.1, hp.2, hg.2⟩

/-- C10 witness: the key/value invariant evaluated on the chunk sequence
`["A"]` and the entry `(a, 1)` present both in the merged statistics and in
the per-chunk partial. -/
theorem claim_C10_stats_keys_values_witness :
    ((97 ≤ Char.toNat 'a' ∧ Char.toNat 'a' ≤ 122)
        ∧ isAlphaCode (Char.toNat 'a') = true
        ∧ lowerCode (Char.toNat 'a') = Char.toNat 'a' ∧ 0 < 1)
      ∧ ((97 ≤ Char.toNat 'a' ∧ Char.toNat 'a' ≤ 122)
        ∧ isAlphaCode (Char.toNat 'a') = true
        ∧ lowerCode (Char.toNat 'a') = Char.toNat 'a' ∧ 0 < 1) :=
  ⟨(claim_C10_stats_keys_values [toCodes "A"] (toCodes "A")
      (Char.toNat 'a') 1).1 (by decide),
   (claim_C10_stats_keys_values [toCodes "A"] (toCodes "A")
      (Char.toNat 'a') 1).2 (by decide)⟩

end TextSanitizer
